import Mathlib

/-!
Shallow embedding of rome-protocol/op-geth's footprint-mismatch core,
source-chain metadata store and context resolver, with theorems checking
the natural-language specification against the code.

Modelling conventions:
* `common.Hash` values are modelled as `Nat`; the zero hash `common.Hash{}`
  is `0`.
* Go `*big.Int` header numbers are modelled as `Option Int` (`none` = nil
  pointer); `big.Int.Uint64` is `u64` (low 64 bits of the absolute value)
  and `big.Int.IsUint64` is `intIsUint64`.
* Go strings holding footprints are modelled as `List Char`; byte slices
  are modelled as `List Nat`.
* Fallible lookups return `Option`; code paths that would dereference a
  nil pointer (panic) return `Except String`.
* File and environment I/O is modelled by explicit state (the ledger file
  contents as a `List Nat` of recorded hashes, one per line) and explicit
  environment functions (`String → String`); I/O failures are outside the
  model.
-/

/-- An execution-chain block header, reduced to the fields the resolver
closures in `core/evm.go` (`NewEVMBlockContext`) consult: the header's own
hash, its parent hash, and its (possibly nil) number. -/
structure Header where
  hash : Nat
  parentHash : Nat
  number : Option Int
deriving DecidableEq

/-- The `ChainContext` collaborator interface used by `NewEVMBlockContext`:
`GetHeader(hash, number)` and `GetSolanaMetadata(blockHash)` (which returns
the recorded slot and solana hash for a block hash). -/
structure ChainContext where
  getHeader : Nat → Nat → Option Header
  getSolanaMetadata : Nat → Option (Nat × Nat)

/-- Model of `big.Int.IsUint64`: the value is in `[0, 2^64)`. -/
def intIsUint64 (n : Int) : Bool :=
  decide (0 ≤ n ∧ n < 2 ^ 64)

/-- Model of `big.Int.Uint64`: the low 64 bits of the absolute value
(`math/big` returns the low word of `x.abs`). On values in uint64 range
this is plain `Int.toNat`. -/
def u64 (n : Int) : Nat := n.natAbs % 2 ^ 64

/-- The ancestor-walking loop of the `getSolanaHash` closure in
`NewEVMBlockContext` (core/evm.go). Starting from `current`, walk to the
parent (`chain.GetHeader(current.ParentHash, number-1)`) up to `fuel`
times (the source runs the loop `for i := 0; i < 256; i++`), checking each
parent's recorded metadata slot against the requested `slot`. The loop
breaks (returning not-found) when the parent hash is the zero hash, the
number is nil, the number is not a uint64, the number is zero, or the
parent header cannot be found. -/
def getSolanaHashLoop (chain : ChainContext) (slot : Nat) :
    Header → Nat → Option Nat
  | _, 0 => none
  | current, fuel + 1 =>
    if current.parentHash = 0 then none
    else
      match current.number with
      | none => none
      | some num =>
        if !(intIsUint64 num) then none
        else
          let number := num.toNat
          if number = 0 then none
          else
            match chain.getHeader current.parentHash (number - 1) with
            | none => none
            | some parent =>
              match chain.getSolanaMetadata parent.hash with
              | some (metaSlot, metaHash) =>
                if metaSlot = slot then some metaHash
                else getSolanaHashLoop chain slot parent fuel
              | none => getSolanaHashLoop chain slot parent fuel

/-- The non-override part of the `getSolanaHash` closure: consult the
current header's recorded metadata, and on a slot mismatch or a missing
record fall back to the 256-hop ancestor walk. -/
def getSolanaHashMain (chain : ChainContext) (header : Header) (slot : Nat) :
    Option Nat :=
  match chain.getSolanaMetadata header.hash with
  | some (metaSlot, metaHash) =>
    if metaSlot = slot then some metaHash
    else getSolanaHashLoop chain slot header 256
  | none => getSolanaHashLoop chain slot header 256

/-- The `getSolanaHash` closure of `NewEVMBlockContext` (core/evm.go),
a.k.a. `ResolveHashBySlot`. `solanaBlockNumber` and `solanaBlockHash` are
the in-progress block's override pointers as captured at context
construction time; the closure first checks
`solanaBlockNumber != nil && *solanaBlockNumber == slot && solanaBlockHash != nil`,
then the current header's durable metadata, then walks ancestors.
`none` models the Go return `(common.Hash{}, false)`. -/
def getSolanaHash (chain : ChainContext) (header : Header)
    (solanaBlockNumber : Option Nat) (solanaBlockHash : Option Nat)
    (slot : Nat) : Option Nat :=
  match solanaBlockNumber, solanaBlockHash with
  | some sbn, some sbh =>
    if sbn = slot then some sbh else getSolanaHashMain chain header slot
  | some _, none => getSolanaHashMain chain header slot
  | none, _ => getSolanaHashMain chain header slot

/-- Spec-side helper: the recorded metadata of header `h` when its slot
equals the requested slot ("checking each ancestor's recorded slot"). -/
def metaSlotMatch (chain : ChainContext) (slot : Nat) (h : Header) :
    Option Nat :=
  match chain.getSolanaMetadata h.hash with
  | some (metaSlot, metaHash) => if metaSlot = slot then some metaHash else none
  | none => none

/-- Modelled from the spec: "walk backward through ancestors
(`parent = lookup(header.parentHash, header.number-1)`) ... bounded to 256
hops. Stop early if genesis is reached, if the parent cannot be found, or
if a block number does not fit the addressable range." The list of
ancestor headers visited, oldest last. -/
def ancestorWalk (chain : ChainContext) : Header → Nat → List Header
  | _, 0 => []
  | current, fuel + 1 =>
    if current.parentHash = 0 then []
    else
      match current.number with
      | none => []
      | some num =>
        if !(intIsUint64 num) then []
        else if num.toNat = 0 then []
        else
          match chain.getHeader current.parentHash (num.toNat - 1) with
          | none => []
          | some parent => parent :: ancestorWalk chain parent fuel

/-- Modelled from the spec: `ResolveHashBySlot` "returns the in-progress
block's override when present and matching, regardless of durable
metadata; otherwise returns the correct ancestor's hash when present
within 256 hops, and not-found beyond that bound or at genesis" — i.e.
the first slot match among the current header followed by at most 256
ancestors. -/
def resolveHashBySlotSpec (chain : ChainContext) (header : Header)
    (solanaBlockNumber : Option Nat) (solanaBlockHash : Option Nat)
    (slot : Nat) : Option Nat :=
  match solanaBlockNumber, solanaBlockHash with
  | some sbn, some sbh =>
    if sbn = slot then some sbh
    else (header :: ancestorWalk chain header 256).findSome?
      (metaSlotMatch chain slot)
  | _, _ =>
    (header :: ancestorWalk chain header 256).findSome?
      (metaSlotMatch chain slot)

lemma getSolanaHashLoop_eq_findSome (chain : ChainContext) (slot : Nat) :
    ∀ (fuel : Nat) (current : Header),
      getSolanaHashLoop chain slot current fuel =
        (ancestorWalk chain current fuel).findSome? (metaSlotMatch chain slot) := by
  intro fuel
  induction fuel with
  | zero => intro current; rfl
  | succ fuel ih =>
    intro current
    rw [getSolanaHashLoop, ancestorWalk]
    by_cases hph : current.parentHash = 0
    · simp [hph]
    · simp only [if_neg hph]
      match hnum : current.number with
      | none => rfl
      | some num =>
        by_cases hu : intIsUint64 num
        · simp only [hu, Bool.not_true, Bool.false_eq_true, if_false]
          by_cases hz : num.toNat = 0
          · simp [hz]
          · simp only [if_neg hz]
            match hpar : chain.getHeader current.parentHash (num.toNat - 1) with
            | none => rfl
            | some parent =>
              simp only [List.findSome?_cons]
              match hmeta : chain.getSolanaMetadata parent.hash with
              | some (metaSlot, metaHash) =>
                simp only [metaSlotMatch, hmeta]
                by_cases hs : metaSlot = slot
                · simp [hs]
                · simp [hs, ih parent]
              | none =>
                simp only [metaSlotMatch, hmeta]
                exact ih parent
        · simp [hu]

/-- C1: for every execution header and requested slot, the
`getSolanaHash` closure (`ResolveHashBySlot`) returns the in-progress
block's override when both override pointers are set and the override
slot equals the requested slot, regardless of durable metadata; otherwise
it returns the first recorded hash whose slot matches among the current
header and its ancestors reached within 256 backward hops (the walk
stopping at genesis, a missing parent, or an out-of-range block number);
and it returns not-found when that bounded search finds no match. -/
theorem c1_getSolanaHash_resolves_by_slot
    (chain : ChainContext) (header : Header)
    (solanaBlockNumber solanaBlockHash : Option Nat) (slot : Nat) :
    getSolanaHash chain header solanaBlockNumber solanaBlockHash slot =
      resolveHashBySlotSpec chain header solanaBlockNumber solanaBlockHash slot := by
  have hmain : getSolanaHashMain chain header slot =
      (header :: ancestorWalk chain header 256).findSome?
        (metaSlotMatch chain slot) := by
    rw [getSolanaHashMain, List.findSome?_cons]
    match hmeta : chain.getSolanaMetadata header.hash with
    | some (metaSlot, metaHash) =>
      simp only [metaSlotMatch, hmeta]
      by_cases hs : metaSlot = slot
      · simp [hs]
      · simp [hs, getSolanaHashLoop_eq_findSome]
    | none =>
      simp only [metaSlotMatch, hmeta]
      exact getSolanaHashLoop_eq_findSome chain slot 256 header
  match solanaBlockNumber, solanaBlockHash with
  | some sbn, some sbh =>
    by_cases hs : sbn = slot
    · simp [getSolanaHash, resolveHashBySlotSpec, hs]
    · simp [getSolanaHash, resolveHashBySlotSpec, hs, hmain]
  | some sbn, none =>
    simpa [getSolanaHash, resolveHashBySlotSpec] using hmain
  | none, sbh =>
    simpa [getSolanaHash, resolveHashBySlotSpec] using hmain

/-- The walking loop of the `getSolanaHashByEthBlock` closure in
`NewEVMBlockContext` (core/evm.go). The Go loop
`for current := header; current != nil;` is unbounded, so the embedding
takes an explicit `fuel`; exhausting it is `.error`, while every Go exit
path is `.ok`. Dereferencing a nil block number inside the loop
(`current.Number.IsUint64()` on a nil pointer) would panic in Go and is
modelled as `.error`. -/
def getSolanaHashByEthBlockLoop (chain : ChainContext) (ethBlockNum : Nat) :
    Option Header → Nat → Except String (Option Nat)
  | none, _ => .ok none
  | some _, 0 => .error "fuel exhausted"
  | some current, fuel + 1 =>
    match current.number with
    | none => .error "nil block number"
    | some num =>
      if !(intIsUint64 num) then .ok none
      else
        let number := num.toNat
        if number = ethBlockNum then
          match chain.getSolanaMetadata current.hash with
          | some (_, metaHash) => .ok (some metaHash)
          | none => .ok none
        else if number < ethBlockNum ∨ number = 0 then .ok none
        else if current.parentHash = 0 then .ok none
        else
          getSolanaHashByEthBlockLoop chain ethBlockNum
            (chain.getHeader current.parentHash (number - 1)) fuel

/-- The `getSolanaHashByEthBlock` closure of `NewEVMBlockContext`
(core/evm.go), a.k.a. `ResolveHashByBlockNumber`. The guard computes
`offset := header.Number.Uint64() - ethBlockNum` with uint64 wraparound
and rejects when `offset > header.Number.Uint64()` or
`ethBlockNum > header.Number.Uint64()`. `ethBlockNum` is a uint64, so
callers keep it below `2 ^ 64`. A nil header number (Go would panic on
`header.Number.Uint64()`) is `.error`. -/
def getSolanaHashByEthBlock (chain : ChainContext) (header : Header)
    (ethBlockNum : Nat) (fuel : Nat) : Except String (Option Nat) :=
  match header.number with
  | none => .error "nil block number"
  | some num =>
    let headerNum := u64 num
    let offset := (headerNum + 2 ^ 64 - ethBlockNum) % 2 ^ 64
    if offset > headerNum ∨ ethBlockNum > headerNum then .ok none
    else getSolanaHashByEthBlockLoop chain ethBlockNum (some header) fuel

/-- Spec-side helper: one backward step of the header-by-header walk,
`lookup(header.parentHash, header.number - 1)`, unavailable at a zero
parent hash or a nil number. -/
def parentOf (chain : ChainContext) (h : Header) : Option Header :=
  match h.number with
  | none => none
  | some num =>
    if h.parentHash = 0 then none
    else chain.getHeader h.parentHash (num.toNat - 1)

/-- Spec-side helper: the ancestor `d` backward steps from `h`, when the
whole descent succeeds. -/
def descend (chain : ChainContext) : Header → Nat → Option Header
  | h, 0 => some h
  | h, d + 1 =>
    match parentOf chain h with
    | none => none
    | some p => descend chain p d

/-- A header-lookup collaborator is sound when `GetHeader(hash, number)`
only returns headers carrying that number (the property the real
blockchain backend provides, and the one that makes the unbounded Go
walk terminate). -/
def headerLookupSound (chain : ChainContext) : Prop :=
  ∀ bh n h, chain.getHeader bh n = some h → h.number = some (n : Int)

lemma getSolanaHashByEthBlockLoop_spec (chain : ChainContext)
    (hwf : headerLookupSound chain) (ethBlockNum : Nat) :
    ∀ (fuel : Nat) (current : Header) (k : Nat),
      current.number = some (k : Int) → ethBlockNum ≤ k → k < 2 ^ 64 →
      k < fuel + ethBlockNum →
      getSolanaHashByEthBlockLoop chain ethBlockNum (some current) fuel =
        .ok (match descend chain current (k - ethBlockNum) with
             | some anc =>
               match chain.getSolanaMetadata anc.hash with
               | some (_, metaHash) => some metaHash
               | none => none
             | none => none) := by
  intro fuel
  induction fuel with
  | zero => intro current k _ hle _ hfuel; omega
  | succ fuel ih =>
    intro current k hnum hle hlt hfuel
    rw [getSolanaHashByEthBlockLoop, hnum]
    have hu : intIsUint64 (k : Int) = true := by
      simp [intIsUint64]
      exact_mod_cast hlt
    have htn : (k : Int).toNat = k := Int.toNat_natCast k
    simp only [hu, Bool.not_true, Bool.false_eq_true, if_false, htn]
    by_cases heq : k = ethBlockNum
    · subst heq
      match hm : chain.getSolanaMetadata current.hash with
      | none => simp [descend, hm]
      | some p =>
        obtain ⟨ms, mh⟩ := p
        simp [descend, hm]
    · have hgt : ethBlockNum < k := lt_of_le_of_ne hle (fun h => heq h.symm)
      simp only [if_neg heq]
      have hnotlt : ¬ (k < ethBlockNum ∨ k = 0) := by omega
      simp only [if_neg hnotlt]
      have hsub : k - ethBlockNum = (k - 1 - ethBlockNum) + 1 := by omega
      by_cases hph : current.parentHash = 0
      · simp only [if_pos hph]
        rw [hsub]
        simp [descend, parentOf, hnum, hph]
      · simp only [if_neg hph]
        match hpar : chain.getHeader current.parentHash (k - 1) with
        | none =>
          rw [hsub]
          simp [getSolanaHashByEthBlockLoop, descend, parentOf, hnum, hph, hpar]
        | some parent =>
          have hpnum : parent.number = some ((k - 1 : Nat) : Int) :=
            hwf _ _ _ hpar
          rw [ih parent (k - 1) hpnum (by omega) (by omega) (by omega)]
          rw [hsub]
          simp [descend, parentOf, hnum, hph, hpar]

/-- C2: for every execution header with a valid uint64 number and every
requested execution block number, the `getSolanaHashByEthBlock` closure
(`ResolveHashByBlockNumber`) returns not-found when `ethBlockNum` exceeds
the current header's number (the wraparound offset guard reduces to
exactly that comparison); otherwise, over a sound header-lookup
collaborator and with enough fuel for the bounded descent, it walks
backward header-by-header to the ancestor whose number equals
`ethBlockNum` and returns that ancestor's recorded metadata hash when
present, and not-found when the metadata is absent or the descent fails
(a header cannot be retrieved or the parent hash is zero). -/
theorem c2_getSolanaHashByEthBlock_resolves_by_number
    (chain : ChainContext) (header : Header) (N : Int)
    (ethBlockNum fuel : Nat)
    (hnum : header.number = some N) (hlo : 0 ≤ N) (hhi : N < 2 ^ 64)
    (heth : ethBlockNum < 2 ^ 64)
    (hwf : headerLookupSound chain)
    (hfuel : N.toNat < fuel + ethBlockNum) :
    getSolanaHashByEthBlock chain header ethBlockNum fuel =
      .ok (if N.toNat < ethBlockNum then none
           else
             match descend chain header (N.toNat - ethBlockNum) with
             | some anc =>
               match chain.getSolanaMetadata anc.hash with
               | some (_, metaHash) => some metaHash
               | none => none
             | none => none) := by
  rw [getSolanaHashByEthBlock, hnum]
  have hu : u64 N = N.toNat := by
    rw [u64]
    have : N.natAbs = N.toNat := by omega
    rw [this]
    exact Nat.mod_eq_of_lt (by omega)
  by_cases hgt : ethBlockNum > N.toNat
  · simp only [hu]
    rw [if_pos (Or.inr hgt)]
    rw [if_pos (by omega : N.toNat < ethBlockNum)]
  · have hle : ethBlockNum ≤ N.toNat := by omega
    have hoffval : (N.toNat + 2 ^ 64 - ethBlockNum) % 2 ^ 64
        = N.toNat - ethBlockNum := by
      have h1 : N.toNat + 2 ^ 64 - ethBlockNum
          = (N.toNat - ethBlockNum) + 2 ^ 64 := by omega
      rw [h1, Nat.add_mod_right]
      exact Nat.mod_eq_of_lt (by omega)
    have hguard : ¬ ((N.toNat + 2 ^ 64 - ethBlockNum) % 2 ^ 64 > N.toNat
        ∨ ethBlockNum > N.toNat) := by
      rw [hoffval]; omega
    simp only [hu]
    rw [if_neg hguard]
    have hN : N = ((N.toNat : Nat) : Int) := by omega
    rw [getSolanaHashByEthBlockLoop_spec chain hwf ethBlockNum fuel header
      N.toNat (by rw [hnum]; exact congrArg some (by omega)) hle
      (by omega) hfuel]
    rw [if_neg (by omega : ¬ N.toNat < ethBlockNum)]

/-- Concrete two-header chain used to witness C2: block 1 with parent
block 0; metadata is recorded only for the parent (hash 9, slot 77,
solana hash 55). -/
def c2Hdr0 : Header := ⟨9, 0, some 0⟩

def c2Hdr1 : Header := ⟨10, 9, some 1⟩

def c2Chain : ChainContext :=
  ⟨fun bh n => if bh = 9 ∧ n = 0 then some c2Hdr0 else none,
   fun bh => if bh = 9 then some (77, 55) else none⟩

lemma c2Chain_sound : headerLookupSound c2Chain := by
  intro bh n h hget
  simp only [c2Chain] at hget
  split at hget
  · rename_i hcond
    cases hget
    simp [c2Hdr0, hcond.2]
  · exact Option.noConfusion hget

/-- Witness for C2 at a concrete two-header chain: resolving execution
block number 0 from the header of block 1 walks one hop to the parent
and returns its recorded solana hash 55. -/
theorem c2_witness :
    headerLookupSound c2Chain ∧
    getSolanaHashByEthBlock c2Chain c2Hdr1 0 2 = .ok (some 55) := by
  refine ⟨c2Chain_sound, ?_⟩
  have h := c2_getSolanaHashByEthBlock_resolves_by_number c2Chain c2Hdr1 1 0 2
    rfl (by decide) (by decide) (by decide) c2Chain_sound (by decide)
  rw [h]
  rfl

/-- A cached state footprint entry (`footprint.Entry` in
core/footprint/footprint.go). Footprint strings are modelled as character
lists. -/
structure Entry where
  expectedFootprint : List Char
  actualFootprint : List Char
  blockNumber : Nat
  mismatch : Bool
deriving DecidableEq

/-- The footprint `Manager` (core/footprint/footprint.go). `cache` and
`knownMismatches` are its in-memory maps; `mismatchFile` is the contents
of the known-mismatch ledger file at `m.mismatchFile`, one recorded
transaction hash per line (hex encoding of lines is abstracted away, and
file I/O never fails in the model). -/
structure Manager where
  cache : Nat → Option Entry
  knownMismatches : Nat → Bool
  mismatchFile : List Nat
  maxCacheAge : Nat
  maxMismatchEntries : Nat

/-- One character of `isValidFootprint`'s rune check:
`(r >= '0' && r <= '9') || (r >= 'a' && r <= 'f') || (r >= 'A' && r <= 'F')`. -/
def isHexDigit (r : Char) : Bool :=
  ('0' ≤ r && r ≤ '9') || ('a' ≤ r && r ≤ 'f') || ('A' ≤ r && r ≤ 'F')

/-- Model of `strings.HasPrefix(s, p)` for the two-character prefixes the
validator uses. -/
def hasPrefix2 (s : List Char) (a b : Char) : Bool :=
  match s with
  | x :: y :: _ => x = a && y = b
  | _ => false

/-- Model of `isValidFootprint` (core/footprint/footprint.go): empty is valid;
otherwise strip an optional `0x`/`0X` prefix and require exactly 64
characters, all hex digits. -/
def isValidFootprint (footprint : List Char) : Bool :=
  if footprint = [] then true
  else
    let hexPart :=
      if hasPrefix2 footprint '0' 'x' || hasPrefix2 footprint '0' 'X' then
        footprint.drop 2
      else footprint
    hexPart.length = 64 && hexPart.all isHexDigit

/-- Model of `Manager.Store` (core/footprint/footprint.go): drop the call silently
when either footprint string is invalid; otherwise replace the cache
entry for `txHash`. -/
def Manager.store (m : Manager) (txHash : Nat)
    (expectedFootprint actualFootprint : List Char)
    (blockNumber : Nat) (mismatch : Bool) : Manager :=
  if !(isValidFootprint expectedFootprint) then m
  else if !(isValidFootprint actualFootprint) then m
  else
    { m with
      cache := fun h =>
        if h = txHash then
          some ⟨expectedFootprint, actualFootprint, blockNumber, mismatch⟩
        else m.cache h }

/-- Model of `Manager.Get` (core/footprint/footprint.go): point lookup in the
cache. -/
def Manager.get (m : Manager) (txHash : Nat) : Option Entry :=
  m.cache txHash

/-- Modelled from the spec: "a string is valid iff it is empty, OR after
stripping an optional `0x`/`0X` prefix it is exactly 64 characters, all
in `[0-9a-fA-F]`" — phrased as an explicit decomposition of the string. -/
def footprintValidSpec (s : List Char) : Prop :=
  s = [] ∨
    ∃ core : List Char,
      (s = '0' :: 'x' :: core ∨ s = '0' :: 'X' :: core ∨
        (s = core ∧ ∀ r : List Char, s ≠ '0' :: 'x' :: r ∧ s ≠ '0' :: 'X' :: r)) ∧
      core.length = 64 ∧ ∀ c ∈ core, isHexDigit c = true

lemma hasPrefix2_eq_true (s : List Char) (a b : Char) :
    hasPrefix2 s a b = true ↔ ∃ t, s = a :: b :: t := by
  match s with
  | [] => simp [hasPrefix2]
  | [x] => simp [hasPrefix2]
  | x :: y :: rest =>
    simp only [hasPrefix2, Bool.and_eq_true, decide_eq_true_eq, List.cons.injEq]
    constructor
    · rintro ⟨h1, h2⟩
      exact ⟨rest, h1, h2, rfl⟩
    · rintro ⟨t, h1, h2, _⟩
      exact ⟨h1, h2⟩

lemma bor_eq_true (a b : Bool) : (a || b) = true ↔ a = true ∨ b = true := by
  cases a <;> simp

lemma isValidFootprint_iff_spec (s : List Char) :
    isValidFootprint s = true ↔ footprintValidSpec s := by
  by_cases hnil : s = []
  · subst hnil
    simp [isValidFootprint, footprintValidSpec]
  · rw [isValidFootprint, if_neg hnil]
    by_cases hp : (hasPrefix2 s '0' 'x' || hasPrefix2 s '0' 'X') = true
    · have hdec : (∃ t, s = '0' :: 'x' :: t) ∨ (∃ t, s = '0' :: 'X' :: t) := by
        rcases (bor_eq_true _ _).mp hp with h | h
        · exact Or.inl ((hasPrefix2_eq_true s '0' 'x').mp h)
        · exact Or.inr ((hasPrefix2_eq_true s '0' 'X').mp h)
      rw [if_pos hp]
      simp only [Bool.and_eq_true, decide_eq_true_eq, List.all_eq_true]
      rcases hdec with ⟨t, rfl⟩ | ⟨t, rfl⟩
      · simp only [List.drop_succ_cons, List.drop_zero]
        constructor
        · rintro ⟨hlen, hhex⟩
          exact Or.inr ⟨t, Or.inl rfl, hlen, hhex⟩
        · rintro (h | ⟨core, hdecomp, hlen, hhex⟩)
          · exact absurd h (by simp)
          rcases hdecomp with h | h | ⟨_, hnp⟩
          · injection h with _ h2
            injection h2 with _ h3
            subst h3
            exact ⟨hlen, hhex⟩
          · injection h with _ h2
            injection h2 with h2 _
            exact absurd h2 (by decide)
          · exact absurd rfl ((hnp t).1)
      · simp only [List.drop_succ_cons, List.drop_zero]
        constructor
        · rintro ⟨hlen, hhex⟩
          exact Or.inr ⟨t, Or.inr (Or.inl rfl), hlen, hhex⟩
        · rintro (h | ⟨core, hdecomp, hlen, hhex⟩)
          · exact absurd h (by simp)
          rcases hdecomp with h | h | ⟨_, hnp⟩
          · injection h with _ h2
            injection h2 with h2 _
            exact absurd h2 (by decide)
          · injection h with _ h2
            injection h2 with _ h3
            subst h3
            exact ⟨hlen, hhex⟩
          · exact absurd rfl ((hnp t).2)
    · rw [if_neg hp]
      simp only [Bool.and_eq_true, decide_eq_true_eq, List.all_eq_true]
      constructor
      · rintro ⟨hlen, hhex⟩
        refine Or.inr ⟨s, Or.inr (Or.inr ⟨rfl, fun r => ⟨?_, ?_⟩⟩), hlen, hhex⟩
        · intro hc
          exact hp ((bor_eq_true _ _).mpr
            (Or.inl ((hasPrefix2_eq_true s '0' 'x').mpr ⟨r, hc⟩)))
        · intro hc
          exact hp ((bor_eq_true _ _).mpr
            (Or.inr ((hasPrefix2_eq_true s '0' 'X').mpr ⟨r, hc⟩)))
      · rintro (h | ⟨core, hdecomp, hlen, hhex⟩)
        · exact absurd h hnil
        rcases hdecomp with h | h | ⟨h, _⟩
        · exact absurd ((bor_eq_true _ _).mpr
            (Or.inl ((hasPrefix2_eq_true s '0' 'x').mpr ⟨core, h⟩))) hp
        · exact absurd ((bor_eq_true _ _).mpr
            (Or.inr ((hasPrefix2_eq_true s '0' 'X').mpr ⟨core, h⟩))) hp
        · rw [h]
          exact ⟨hlen, hhex⟩

/-- C3: a footprint string is valid iff it is empty or, after stripping
an optional `0x`/`0X` prefix, it is exactly 64 hex characters; when both
strings are valid, `Store` writes the entry (replacing any existing entry
for the hash) and `Get` returns exactly the values written; when either
string is invalid, `Store` is a no-op and the manager is unchanged. -/
theorem c3_store_get_validation (m : Manager) (txHash : Nat)
    (expectedFootprint actualFootprint : List Char)
    (blockNumber : Nat) (mismatch : Bool) (s : List Char) :
    (isValidFootprint s = true ↔ footprintValidSpec s) ∧
    (isValidFootprint expectedFootprint = true →
      isValidFootprint actualFootprint = true →
      (m.store txHash expectedFootprint actualFootprint blockNumber
          mismatch).get txHash =
        some ⟨expectedFootprint, actualFootprint, blockNumber, mismatch⟩) ∧
    (¬ (isValidFootprint expectedFootprint = true ∧
        isValidFootprint actualFootprint = true) →
      m.store txHash expectedFootprint actualFootprint blockNumber mismatch
        = m) := by
  refine ⟨isValidFootprint_iff_spec s, ?_, ?_⟩
  · intro hexp hact
    simp [Manager.store, Manager.get, hexp, hact]
  · intro hinval
    rcases Decidable.not_and_iff_or_not.mp hinval with h | h
    · simp [Manager.store, Bool.not_eq_true _ ▸ h]
    · rw [Manager.store]
      by_cases hexp : isValidFootprint expectedFootprint = true
      · simp [hexp, Bool.not_eq_true _ ▸ h]
      · simp [hexp]

/-- A valid 64-hex-character footprint used in witnesses. -/
def sampleFootprint : List Char := List.replicate 64 'a'

/-- An invalid footprint (63 characters) used in witnesses. -/
def shortFootprint : List Char := List.replicate 63 'a'

/-- An empty manager used in witnesses (all caches empty, default
configuration: `maxCacheAge` 12, `maxMismatchEntries` 10000). -/
def emptyManager : Manager :=
  ⟨fun _ => none, fun _ => false, [], 12, 10000⟩

/-- Witness for C3: storing a valid 64-hex footprint pair succeeds and
`Get` returns it, and storing with one invalid (63-character) string is a
no-op. -/
theorem c3_witness :
    (isValidFootprint sampleFootprint = true ∧
      (emptyManager.store 7 sampleFootprint sampleFootprint 100 false).get 7 =
        some ⟨sampleFootprint, sampleFootprint, 100, false⟩) ∧
    (¬ (isValidFootprint sampleFootprint = true ∧
        isValidFootprint shortFootprint = true) ∧
      emptyManager.store 7 sampleFootprint shortFootprint 100 false
        = emptyManager) := by
  have hvalid : isValidFootprint sampleFootprint = true := by decide
  have hshort : ¬ (isValidFootprint sampleFootprint = true ∧
      isValidFootprint shortFootprint = true) := by decide
  exact ⟨⟨hvalid,
    (c3_store_get_validation emptyManager 7 sampleFootprint sampleFootprint
      100 false []).2.1 hvalid hvalid⟩,
    ⟨hshort,
    (c3_store_get_validation emptyManager 7 sampleFootprint shortFootprint
      100 false []).2.2 hshort⟩⟩

/-- Model of `Manager.EvictOldEntries` (core/footprint/footprint.go): no-op when
`currentBlockNumber <= maxCacheAge`; otherwise delete every cache entry
with `entry.BlockNumber < currentBlockNumber - maxCacheAge`. -/
def Manager.evictOldEntries (m : Manager) (currentBlockNumber : Nat) : Manager :=
  if currentBlockNumber ≤ m.maxCacheAge then m
  else
    { m with
      cache := fun txHash =>
        match m.cache txHash with
        | some entry =>
          if entry.blockNumber < currentBlockNumber - m.maxCacheAge then none
          else some entry
        | none => none }

lemma evictOldEntries_cache (m : Manager) (N h : Nat)
    (hN : ¬ N ≤ m.maxCacheAge) :
    (m.evictOldEntries N).cache h =
      match m.cache h with
      | some entry =>
        if entry.blockNumber < N - m.maxCacheAge then none else some entry
      | none => none := by
  rw [Manager.evictOldEntries, if_neg hN]

/-- C5: with `maxCacheAge = 12` (the value `GetManager` installs), after
`EvictOldEntries(N)` every remaining cache entry satisfies
`N - blockNumber ≤ 12`, and every entry that satisfied
`N - blockNumber > 12` before the call is absent after it. -/
theorem c5_evictOldEntries_age_bound (m : Manager) (N h : Nat) (e : Entry)
    (hage : m.maxCacheAge = 12) :
    ((m.evictOldEntries N).cache h = some e → N - e.blockNumber ≤ 12) ∧
    (m.cache h = some e → N - e.blockNumber > 12 →
      (m.evictOldEntries N).cache h = none) := by
  by_cases hN : N ≤ m.maxCacheAge
  · rw [Manager.evictOldEntries, if_pos hN]
    rw [hage] at hN
    exact ⟨fun _ => by omega, fun _ hgt => by omega⟩
  · have hcache := evictOldEntries_cache m N h hN
    rw [hage] at hcache hN
    constructor
    · intro hkept
      rw [hcache] at hkept
      match hc : m.cache h with
      | none =>
        rw [hc] at hkept
        simp at hkept
      | some e0 =>
        rw [hc] at hkept
        by_cases hlt : e0.blockNumber < N - 12
        · simp [hlt] at hkept
        · simp [hlt] at hkept
          subst hkept
          omega
    · intro hc hgt
      rw [hcache, hc]
      simp [show e.blockNumber < N - 12 by omega]

/-- Concrete manager used to witness C5: one cache entry stored at block
100 under transaction hash 1. -/
def c5Manager : Manager :=
  ⟨fun h => if h = 1 then some ⟨[], [], 100, true⟩ else none,
   fun _ => false, [], 12, 10000⟩

/-- Witness for C5: the entry stored at block 100 is evicted by
`EvictOldEntries(113)` (113 - 100 = 13 > 12) and retained by
`EvictOldEntries(112)`. -/
theorem c5_witness :
    (c5Manager.maxCacheAge = 12 ∧ c5Manager.cache 1 = some ⟨[], [], 100, true⟩ ∧
      113 - 100 > 12 ∧ (c5Manager.evictOldEntries 113).cache 1 = none) ∧
    (c5Manager.evictOldEntries 112).cache 1 = some ⟨[], [], 100, true⟩ := by
  refine ⟨⟨rfl, rfl, by decide, ?_⟩, by decide⟩
  exact (c5_evictOldEntries_age_bound c5Manager 113 1 ⟨[], [], 100, true⟩
    rfl).2 rfl (by decide)

/-- The last `n` elements of a list: models the Go slice expression
`entries[len(entries)-int(max):]` used by `RecordMismatch` and
`loadKnownMismatches` to truncate the ledger. -/
def lastN {α : Type} (n : Nat) (l : List α) : List α :=
  l.drop (l.length - n)

lemma lastN_of_le {α : Type} {n : Nat} {l : List α} (h : l.length ≤ n) :
    lastN n l = l := by
  rw [lastN, Nat.sub_eq_zero_of_le h, List.drop_zero]

lemma length_lastN {α : Type} (n : Nat) (l : List α) :
    (lastN n l).length = l.length - (l.length - n) := by
  rw [lastN, List.length_drop]

lemma lastN_lastN_append {α : Type} (n : Nat) (a r : List α) :
    lastN n (lastN n a ++ r) = lastN n (a ++ r) := by
  by_cases h : a.length ≤ n
  · rw [lastN_of_le h]
  · have hn : n ≤ a.length := by omega
    simp only [lastN, List.length_append, List.length_drop]
    rw [List.drop_append_eq_append_drop, List.drop_append_eq_append_drop,
        List.drop_drop, List.length_drop]
    congr 2 <;> omega

/-- Model of `Manager.IsKnownMismatch` (core/footprint/footprint.go). -/
def Manager.isKnownMismatch (m : Manager) (txHash : Nat) : Bool :=
  m.knownMismatches txHash

/-- Model of `Manager.RecordMismatch` (core/footprint/footprint.go): no-op when the
hash is already known; otherwise add it to the in-memory map, read the
existing ledger lines, append the new hash, truncate to the most recent
`maxMismatchEntries` entries (rebuilding the in-memory map from the kept
entries when truncation fires), and rewrite the ledger file. The file
contents are `m.mismatchFile`; rewriting is modelled by replacing that
field, and write errors are outside the model (the Go code updates the
in-memory state before any I/O, so an I/O failure does not change the
in-memory outcome). -/
def Manager.recordMismatch (m : Manager) (txHash : Nat) : Manager :=
  if m.knownMismatches txHash then m
  else
    if (m.mismatchFile ++ [txHash]).length > m.maxMismatchEntries then
      { m with
        knownMismatches := fun h =>
          decide (h ∈ lastN m.maxMismatchEntries (m.mismatchFile ++ [txHash])),
        mismatchFile := lastN m.maxMismatchEntries (m.mismatchFile ++ [txHash]) }
    else
      { m with
        knownMismatches := fun h =>
          if h = txHash then true else m.knownMismatches h,
        mismatchFile := m.mismatchFile ++ [txHash] }

/-- Folding `RecordMismatch` over a list of transaction hashes in order. -/
def Manager.recordAll (m : Manager) (l : List Nat) : Manager :=
  l.foldl Manager.recordMismatch m

/-- A fresh manager with empty caches and an empty ledger, configured
with the given ledger bound (the state `GetManager` produces when no
ledger file exists yet). -/
def freshManager (maxMismatchEntries : Nat) : Manager :=
  ⟨fun _ => none, fun _ => false, [], 12, maxMismatchEntries⟩

lemma tx_mem_lastN_append {n : Nat} (hn : 0 < n) (l : List Nat) (x : Nat) :
    x ∈ lastN n (l ++ [x]) := by
  rw [lastN, List.drop_append_eq_append_drop]
  have h0 : (l ++ [x]).length - n - l.length = 0 := by
    simp only [List.length_append, List.length_singleton]
    omega
  rw [h0, List.drop_zero]
  exact List.mem_append_right _ (List.mem_singleton_self x)

lemma recordMismatch_fresh (m : Manager) (tx : Nat)
    (hsync : ∀ x, m.knownMismatches x = decide (x ∈ m.mismatchFile))
    (hfresh : tx ∉ m.mismatchFile) :
    (m.recordMismatch tx).mismatchFile
        = lastN m.maxMismatchEntries (m.mismatchFile ++ [tx])
    ∧ (∀ x, (m.recordMismatch tx).knownMismatches x
        = decide (x ∈ (m.recordMismatch tx).mismatchFile))
    ∧ (m.recordMismatch tx).maxMismatchEntries = m.maxMismatchEntries := by
  have hk : m.knownMismatches tx = false := by
    rw [hsync tx]
    simp [hfresh]
  rw [Manager.recordMismatch, hk]
  simp only [Bool.false_eq_true, if_false]
  by_cases hlen : (m.mismatchFile ++ [tx]).length > m.maxMismatchEntries
  · rw [if_pos hlen]
    exact ⟨rfl, fun x => rfl, rfl⟩
  · rw [if_neg hlen]
    refine ⟨?_, ?_, rfl⟩
    · rw [lastN_of_le (by omega)]
    · intro x
      by_cases hx : x = tx
      · subst hx
        simp
      · simp only [if_neg hx, hsync x]
        simp [List.mem_append, hx]

lemma recordAll_ledger_spec : ∀ (l : List Nat) (m : Manager),
    (∀ x, m.knownMismatches x = decide (x ∈ m.mismatchFile)) →
    (∀ x ∈ l, x ∉ m.mismatchFile) → l.Nodup →
    m.mismatchFile.length ≤ m.maxMismatchEntries →
    (m.recordAll l).mismatchFile
        = lastN m.maxMismatchEntries (m.mismatchFile ++ l)
    ∧ (∀ x, (m.recordAll l).knownMismatches x
        = decide (x ∈ (m.recordAll l).mismatchFile))
    ∧ (m.recordAll l).maxMismatchEntries = m.maxMismatchEntries := by
  intro l
  induction l with
  | nil =>
    intro m hsync _ _ hlen
    exact ⟨by rw [List.append_nil, lastN_of_le hlen]; rfl, hsync, rfl⟩
  | cons t rest ih =>
    intro m hsync hfresh hnd hlen
    obtain ⟨hfile1, hsync1, hmax1⟩ :=
      recordMismatch_fresh m t hsync (hfresh t (by simp))
    have hrw : Manager.recordAll m (t :: rest)
        = Manager.recordAll (m.recordMismatch t) rest := rfl
    rw [hrw]
    have hfresh1 : ∀ x ∈ rest, x ∉ (m.recordMismatch t).mismatchFile := by
      intro x hx hmem
      rw [hfile1, lastN] at hmem
      have hmem2 := List.mem_of_mem_drop hmem
      rcases List.mem_append.mp hmem2 with h | h
      · exact hfresh x (by simp [hx]) h
      · have hxt : x = t := by simpa using h
        subst hxt
        exact (List.nodup_cons.mp hnd).1 hx
    have hlen1 : (m.recordMismatch t).mismatchFile.length
        ≤ (m.recordMismatch t).maxMismatchEntries := by
      rw [hfile1, hmax1, length_lastN]
      omega
    obtain ⟨hfa, hfb, hfc⟩ :=
      ih (m.recordMismatch t) hsync1 hfresh1 (List.nodup_cons.mp hnd).2 hlen1
    refine ⟨?_, hfb, by rw [hfc, hmax1]⟩
    rw [hfa, hfile1, hmax1, lastN_lastN_append, List.append_assoc,
        List.singleton_append]

/-- C4: starting from a fresh manager, after recording any sequence of
distinct transaction hashes the ledger file holds exactly the last
`maxMismatchEntries` hashes recorded (so the oldest entries are dropped
first), the in-memory known-mismatch set coincides with the file
contents, and at every intermediate step of the sequence the file length
never exceeds `maxMismatchEntries`. The file and the set are updated in
the same `RecordMismatch` step, so no partial truncation state is
observable after the call returns. -/
theorem c4_mismatch_ledger_bounded (maxE : Nat) (l : List Nat) (i x : Nat)
    (hnd : l.Nodup) :
    ((freshManager maxE).recordAll l).mismatchFile
        = l.drop (l.length - maxE)
    ∧ ((freshManager maxE).recordAll l).knownMismatches x
        = decide (x ∈ l.drop (l.length - maxE))
    ∧ ((freshManager maxE).recordAll (l.take i)).mismatchFile.length ≤ maxE := by
  have hbase : ∀ (l2 : List Nat), l2.Nodup →
      ((freshManager maxE).recordAll l2).mismatchFile
          = l2.drop (l2.length - maxE)
      ∧ (∀ y, ((freshManager maxE).recordAll l2).knownMismatches y
          = decide (y ∈ ((freshManager maxE).recordAll l2).mismatchFile)) := by
    intro l2 hnd2
    obtain ⟨ha, hb, _⟩ := recordAll_ledger_spec l2 (freshManager maxE)
      (fun y => by simp [freshManager]) (fun y _ hy => by simp [freshManager] at hy)
      hnd2 (by simp [freshManager])
    refine ⟨?_, hb⟩
    rw [ha]
    simp [freshManager, lastN]
  obtain ⟨ha, hb⟩ := hbase l hnd
  obtain ⟨hta, _⟩ := hbase (l.take i) (hnd.sublist (List.take_sublist i l))
  refine ⟨ha, ?_, ?_⟩
  · rw [hb x, ha]
  · rw [hta, List.length_drop]
    omega

/-- Witness for C4: with a bound of 2, recording the distinct hashes
1, 2, 3 leaves exactly the last two on the ledger, the in-memory set
agrees, and the prefix of length 2 stays within the bound. -/
theorem c4_witness :
    ([1, 2, 3] : List Nat).Nodup ∧
    ((freshManager 2).recordAll [1, 2, 3]).mismatchFile
        = [1, 2, 3].drop ([1, 2, 3].length - 2) ∧
    ((freshManager 2).recordAll [1, 2, 3]).knownMismatches 1
        = decide ((1 : Nat) ∈ [1, 2, 3].drop ([1, 2, 3].length - 2)) ∧
    ((freshManager 2).recordAll ([1, 2, 3].take 2)).mismatchFile.length ≤ 2 := by
  have hnd : ([1, 2, 3] : List Nat).Nodup := by decide
  exact ⟨hnd, c4_mismatch_ledger_bounded 2 [1, 2, 3] 2 1 hnd⟩

lemma recordMismatch_of_known (m : Manager) (tx : Nat)
    (hk : m.knownMismatches tx = true) : m.recordMismatch tx = m := by
  rw [Manager.recordMismatch, hk]
  simp

lemma recordMismatch_known_after (m : Manager) (tx : Nat)
    (hz : 0 < m.maxMismatchEntries) :
    (m.recordMismatch tx).knownMismatches tx = true := by
  by_cases hk : m.knownMismatches tx = true
  · rw [recordMismatch_of_known m tx hk]
    exact hk
  · have hkf : m.knownMismatches tx = false := by simpa using hk
    rw [Manager.recordMismatch, hkf]
    simp only [Bool.false_eq_true, if_false]
    by_cases hlen : (m.mismatchFile ++ [tx]).length > m.maxMismatchEntries
    · rw [if_pos hlen]
      simp only
      exact decide_eq_true (tx_mem_lastN_append hz m.mismatchFile tx)
    · rw [if_neg hlen]
      simp

/-- C9: `RecordMismatch` is idempotent — recording the same transaction
hash a second time immediately after a first call leaves the manager
(in-memory known-mismatch set and ledger file contents) exactly as it was
after the first call. The Go function returns an error only on file I/O
failure, which is outside this model, and on the second call it returns
before any I/O because the hash is already known. -/
theorem c9_recordMismatch_idempotent (m : Manager) (tx : Nat) :
    (m.recordMismatch tx).recordMismatch tx = m.recordMismatch tx := by
  by_cases hz : 0 < m.maxMismatchEntries
  · exact recordMismatch_of_known _ tx
      (recordMismatch_known_after m tx hz)
  · have hz0 : m.maxMismatchEntries = 0 := by omega
    by_cases hk : m.knownMismatches tx = true
    · rw [recordMismatch_of_known m tx hk]
      exact recordMismatch_of_known m tx hk
    · have hnil : lastN m.maxMismatchEntries (m.mismatchFile ++ [tx]) = [] := by
        rw [hz0, lastN]
        exact List.drop_eq_nil_of_le (by omega)
      have h1 : m.recordMismatch tx =
          { m with knownMismatches := fun h => decide (h ∈ ([] : List Nat)),
                   mismatchFile := [] } := by
        have hkf : m.knownMismatches tx = false := by simpa using hk
        rw [Manager.recordMismatch, hkf]
        simp only [Bool.false_eq_true, if_false]
        rw [if_pos (by rw [hz0]; simp), hnil]
      rw [h1]
      have hk1 : (fun h => decide (h ∈ ([] : List Nat))) tx = false := by simp
      rw [Manager.recordMismatch]
      simp only [hk1, Bool.false_eq_true, if_false]
      rw [if_pos (by rw [hz0]; simp)]
      have hnil1 : lastN m.maxMismatchEntries (([] : List Nat) ++ [tx]) = [] := by
        rw [hz0, lastN]
        exact List.drop_eq_nil_of_le (by omega)
      rw [hnil1]

/-- One entry of the in-memory solana metadata LRU cache
(`solanaMetadataEntry` in core/solana_metadata_cache.go). -/
structure MetaEntry where
  blockHash : Nat
  slot : Nat
  solanaHash : Nat
deriving DecidableEq

/-- The `solanaMetadataCache` (core/solana_metadata_cache.go): a
`container/list` doubly linked list plus a map indexing it by block hash.
The list is modelled directly, head = front = most recently used; the map
is derivable from the list and not duplicated. `capacity` is a Go `int`. -/
structure MetaCache where
  capacity : Int
  entries : List MetaEntry
deriving DecidableEq

/-- Model of `newSolanaMetadataCache` (core/solana_metadata_cache.go). -/
def newSolanaMetadataCache (capacity : Int) : MetaCache :=
  ⟨capacity, []⟩

/-- Model of `solanaMetadataCache.Get` (core/solana_metadata_cache.go): map lookup,
returning the entry's slot and solana hash; no position refresh. -/
def MetaCache.get (c : MetaCache) (blockHash : Nat) : Option (Nat × Nat) :=
  match c.entries.find? (fun e => e.blockHash == blockHash) with
  | some e => some (e.slot, e.solanaHash)
  | none => none

/-- Removing the unique list element holding a key, as
`c.ll.MoveToFront(elem)` detaches the element the map points at (the map
holds at most one element per key). -/
def removeFirstKey : List MetaEntry → Nat → List MetaEntry
  | [], _ => []
  | e :: rest, k => if e.blockHash = k then rest else e :: removeFirstKey rest k

/-- The eviction loop of `solanaMetadataCache.Add`:
`for c.ll.Len() > c.capacity { remove back }`. -/
def evictWhileOver (cap : Nat) (entries : List MetaEntry) : List MetaEntry :=
  if _hle : entries.length ≤ cap then entries
  else evictWhileOver cap entries.dropLast
termination_by entries.length
decreasing_by
  rw [List.length_dropLast]
  omega

/-- Model of `solanaMetadataCache.Add` (core/solana_metadata_cache.go) on a
non-nil cache: no-op when `capacity <= 0`; update-and-move-to-front when
the key is already cached; otherwise push a new entry at the front and
evict from the back while over capacity. -/
def MetaCache.add (c : MetaCache) (blockHash slot solanaHash : Nat) :
    MetaCache :=
  if c.capacity ≤ 0 then c
  else if c.entries.any (fun e => e.blockHash == blockHash) then
    { c with entries :=
        ⟨blockHash, slot, solanaHash⟩ :: removeFirstKey c.entries blockHash }
  else
    { c with entries :=
        (evictWhileOver c.capacity.toNat
          (⟨blockHash, slot, solanaHash⟩ :: c.entries)) }

/-- Model of `Add` called through a possibly nil cache reference: the
`c == nil` guard makes it a no-op. -/
def addToCacheRef (c : Option MetaCache) (blockHash slot solanaHash : Nat) :
    Option MetaCache :=
  match c with
  | none => none
  | some cc => some (cc.add blockHash slot solanaHash)

/-- Adding a list of distinct keys in order, each key `k` carrying slot
`k` and solana hash `k`. -/
def addKeys (c : MetaCache) (l : List Nat) : MetaCache :=
  l.foldl (fun acc k => acc.add k k k) c

/-- Folding an arbitrary sequence of `Add` operations
(key, slot, solana hash). -/
def applyAdds (c : MetaCache) (ops : List (Nat × Nat × Nat)) : MetaCache :=
  ops.foldl (fun acc op => acc.add op.1 op.2.1 op.2.2) c

lemma evictWhileOver_eq_take_of_le :
    ∀ (fuel cap : Nat) (l : List MetaEntry), l.length ≤ fuel →
      evictWhileOver cap l = l.take cap := by
  intro fuel
  induction fuel with
  | zero =>
    intro cap l hl
    have : l = [] := List.eq_nil_of_length_eq_zero (by omega)
    subst this
    rw [evictWhileOver]
    simp
  | succ fuel ih =>
    intro cap l hl
    rw [evictWhileOver]
    by_cases h : l.length ≤ cap
    · rw [dif_pos h, List.take_of_length_le h]
    · rw [dif_neg h, ih cap l.dropLast (by rw [List.length_dropLast]; omega)]
      rw [List.dropLast_eq_take, List.take_take]
      congr 1
      omega

lemma evictWhileOver_eq_take (cap : Nat) (l : List MetaEntry) :
    evictWhileOver cap l = l.take cap :=
  evictWhileOver_eq_take_of_le l.length cap l le_rfl

lemma add_capacity (c : MetaCache) (k s h : Nat) :
    (c.add k s h).capacity = c.capacity := by
  rw [MetaCache.add]
  by_cases h1 : c.capacity ≤ 0
  · rw [if_pos h1]
  · rw [if_neg h1]
    by_cases h2 : c.entries.any (fun e => e.blockHash == k) = true
    · rw [if_pos h2]
    · rw [if_neg h2]

lemma add_fresh (c : MetaCache) (k s h : Nat) (hcap : ¬ c.capacity ≤ 0)
    (hfresh : c.entries.any (fun e => e.blockHash == k) = false) :
    (c.add k s h).entries = (⟨k, s, h⟩ :: c.entries).take c.capacity.toNat := by
  rw [MetaCache.add, if_neg hcap, hfresh]
  simp only [Bool.false_eq_true, if_false]
  rw [evictWhileOver_eq_take]

lemma add_existing (c : MetaCache) (k s h : Nat) (hcap : ¬ c.capacity ≤ 0)
    (hmem : c.entries.any (fun e => e.blockHash == k) = true) :
    (c.add k s h).entries = ⟨k, s, h⟩ :: removeFirstKey c.entries k := by
  rw [MetaCache.add, if_neg hcap, if_pos hmem]

lemma any_key_eq_false (l : List MetaEntry) (k : Nat)
    (h : ∀ e ∈ l, e.blockHash ≠ k) :
    l.any (fun e => e.blockHash == k) = false := by
  simp only [List.any_eq_false, beq_iff_eq]
  exact h

lemma addKeys_fresh_entries :
    ∀ (l : List Nat) (c : MetaCache), 0 < c.capacity →
      (∀ k ∈ l, ∀ e ∈ c.entries, e.blockHash ≠ k) → l.Nodup →
      c.entries.length ≤ c.capacity.toNat →
      (addKeys c l).entries
          = ((l.map (fun k => (⟨k, k, k⟩ : MetaEntry))).reverse
              ++ c.entries).take c.capacity.toNat
      ∧ (addKeys c l).capacity = c.capacity := by
  intro l
  induction l with
  | nil =>
    intro c _ _ _ hlen
    exact ⟨by simp [addKeys, List.take_of_length_le hlen], rfl⟩
  | cons k rest ih =>
    intro c hcap hfresh hnd hlen
    have hcap2 : ¬ c.capacity ≤ 0 := by omega
    have hkfresh : c.entries.any (fun e => e.blockHash == k) = false :=
      any_key_eq_false _ _ (hfresh k (by simp))
    have hstep : (c.add k k k).entries
        = (⟨k, k, k⟩ :: c.entries).take c.capacity.toNat :=
      add_fresh c k k k hcap2 hkfresh
    have hrw : addKeys c (k :: rest) = addKeys (c.add k k k) rest := rfl
    rw [hrw]
    have hcapeq : (c.add k k k).capacity = c.capacity := add_capacity c k k k
    have hfresh1 : ∀ k2 ∈ rest, ∀ e ∈ (c.add k k k).entries,
        e.blockHash ≠ k2 := by
      intro k2 hk2 e he
      rw [hstep] at he
      have he2 := List.mem_of_mem_take he
      rcases List.mem_cons.mp he2 with h | h
      · subst h
        simp only
        intro hcon
        subst hcon
        exact (List.nodup_cons.mp hnd).1 hk2
      · exact hfresh k2 (by simp [hk2]) e h
    have hlen1 : (c.add k k k).entries.length
        ≤ (c.add k k k).capacity.toNat := by
      rw [hstep, hcapeq, List.length_take]
      omega
    obtain ⟨ha, hb⟩ := ih (c.add k k k) (by rw [hcapeq]; exact hcap) hfresh1
      (List.nodup_cons.mp hnd).2 hlen1
    refine ⟨?_, by rw [hb, hcapeq]⟩
    rw [ha, hstep, hcapeq]
    have habsorb : ∀ (A B : List MetaEntry) (n : Nat),
        (A ++ B.take n).take n = (A ++ B).take n := by
      intro A B n
      rw [List.take_append_eq_append_take, List.take_append_eq_append_take,
          List.take_take]
      congr 2
      omega
    rw [habsorb]
    congr 1
    simp [List.append_assoc]

lemma removeFirstKey_subset :
    ∀ (l : List MetaEntry) (k : Nat) (x : MetaEntry),
      x ∈ removeFirstKey l k → x ∈ l := by
  intro l
  induction l with
  | nil => intro k x hx; exact absurd hx (by simp [removeFirstKey])
  | cons e rest ih =>
    intro k x hx
    rw [removeFirstKey] at hx
    by_cases he : e.blockHash = k
    · rw [if_pos he] at hx
      exact List.mem_cons_of_mem e hx
    · rw [if_neg he] at hx
      rcases List.mem_cons.mp hx with h | h
      · subst h; exact List.mem_cons_self x rest
      · exact List.mem_cons_of_mem e (ih k x h)

lemma removeFirstKey_length :
    ∀ (l : List MetaEntry) (k : Nat),
      l.any (fun e => e.blockHash == k) = true →
      (removeFirstKey l k).length + 1 = l.length := by
  intro l
  induction l with
  | nil => intro k hk; simp at hk
  | cons e rest ih =>
    intro k hk
    rw [removeFirstKey]
    by_cases he : e.blockHash = k
    · rw [if_pos he]
      simp
    · rw [if_neg he]
      have hrest : rest.any (fun x => x.blockHash == k) = true := by
        simp only [List.any_cons, Bool.or_eq_true_iff] at hk
        rcases hk with h | h
        · exact absurd (by simpa using h) he
        · exact h
      simp only [List.length_cons]
      rw [← ih k hrest]

/-- C6: for the LRU metadata cache, (a) after `Add`-ing `C + 1` distinct
keys in order into a fresh cache of positive capacity `C`, the
first-inserted key has been evicted and `Get` on it returns not-found;
(b) re-accessing a cached key via `Add` moves it to the
most-recently-used position, so (for capacity at least 2) it survives the
eviction triggered by the next fresh `Add` and `Get` still returns it,
with the refreshed values. -/
theorem c6_lru_evicts_first_and_refresh_protects
    (C k0 : Nat) (rest : List Nat)
    (c : MetaCache) (k s h s2 h2 knew : Nat) :
    (0 < C → (k0 :: rest).Nodup → rest.length = C →
      (addKeys (newSolanaMetadataCache (C : Int)) (k0 :: rest)).get k0 = none)
    ∧ (2 ≤ c.capacity → (∃ e ∈ c.entries, e.blockHash = k) →
      (∀ e ∈ c.entries, e.blockHash ≠ knew) → knew ≠ k →
      ((c.add k s h).add knew s2 h2).get k = some (s, h)) := by
  constructor
  · intro hC hnd hlen
    have hcap : (0 : Int) < (C : Int) := by exact_mod_cast hC
    obtain ⟨ha, _⟩ := addKeys_fresh_entries (k0 :: rest)
      (newSolanaMetadataCache (C : Int)) hcap
      (by intro a ha e he; exact absurd he (by simp [newSolanaMetadataCache]))
      hnd (by simp [newSolanaMetadataCache])
    rw [MetaCache.get, ha]
    have htoNat : ((C : Int)).toNat = C := Int.toNat_natCast C
    have hA : ((k0 :: rest).map
        (fun k2 => (⟨k2, k2, k2⟩ : MetaEntry))).reverse
        = (rest.map (fun k2 => (⟨k2, k2, k2⟩ : MetaEntry))).reverse
          ++ [⟨k0, k0, k0⟩] := by
      simp
    have hlenA : ((rest.map
        (fun k2 => (⟨k2, k2, k2⟩ : MetaEntry))).reverse).length = C := by
      simp [hlen]
    rw [newSolanaMetadataCache, htoNat, hA]
    simp only [List.append_nil]
    rw [List.take_append_eq_append_take, hlenA, Nat.sub_self,
        List.take_zero, List.append_nil,
        List.take_of_length_le (le_of_eq hlenA)]
    have hfindnone : ((rest.map
        (fun k2 => (⟨k2, k2, k2⟩ : MetaEntry))).reverse).find?
        (fun e => e.blockHash == k0) = none := by
      rw [List.find?_eq_none]
      intro x hx
      rw [List.mem_reverse] at hx
      obtain ⟨k2, hk2, hxk⟩ := List.mem_map.mp hx
      subst hxk
      simp only [beq_iff_eq]
      intro hcon
      subst hcon
      exact (List.nodup_cons.mp hnd).1 hk2
    rw [hfindnone]
  · intro hcap hmem hknew hne
    have hcap2 : ¬ c.capacity ≤ 0 := by omega
    have hmemb : c.entries.any (fun e => e.blockHash == k) = true := by
      simp only [List.any_eq_true, beq_iff_eq]
      exact hmem
    have h1 := add_existing c k s h hcap2 hmemb
    have hcap1 : (c.add k s h).capacity = c.capacity := add_capacity c k s h
    have hfresh2 : (c.add k s h).entries.any
        (fun e => e.blockHash == knew) = false := by
      apply any_key_eq_false
      intro e he
      rw [h1] at he
      rcases List.mem_cons.mp he with hh | hh
      · subst hh
        simpa using fun hcon => hne hcon.symm
      · exact hknew e (removeFirstKey_subset _ _ _ hh)
    have hf2 := add_fresh (c.add k s h) knew s2 h2 (by rw [hcap1]; omega)
      hfresh2
    rw [MetaCache.get, hf2, h1, hcap1]
    obtain ⟨d, hd⟩ : ∃ d, c.capacity.toNat = d + 2 :=
      ⟨c.capacity.toNat - 2, by omega⟩
    rw [hd]
    rw [show d + 2 = (d + 1) + 1 by omega, List.take_succ_cons,
        List.take_succ_cons]
    have hb1 : (((⟨knew, s2, h2⟩ : MetaEntry)).blockHash == k) = false := by
      simpa using fun hcon => hne hcon
    have hb2 : (((⟨k, s, h⟩ : MetaEntry)).blockHash == k) = true := by simp
    rw [List.find?_cons, hb1, List.find?_cons, hb2]

lemma applyAdds_capacity :
    ∀ (ops : List (Nat × Nat × Nat)) (c : MetaCache),
      (applyAdds c ops).capacity = c.capacity := by
  intro ops
  induction ops with
  | nil => intro c; rfl
  | cons op rest ih =>
    intro c
    have hrw : applyAdds c (op :: rest)
        = applyAdds (c.add op.1 op.2.1 op.2.2) rest := rfl
    rw [hrw, ih, add_capacity]

lemma add_length_le (c : MetaCache) (k s h : Nat)
    (hlen : c.entries.length ≤ c.capacity.toNat) :
    (c.add k s h).entries.length ≤ c.capacity.toNat := by
  rw [MetaCache.add]
  by_cases h1 : c.capacity ≤ 0
  · rw [if_pos h1]
    exact hlen
  · rw [if_neg h1]
    by_cases h2 : c.entries.any (fun e => e.blockHash == k) = true
    · rw [if_pos h2]
      show (⟨k, s, h⟩ :: removeFirstKey c.entries k).length ≤ c.capacity.toNat
      rw [List.length_cons, removeFirstKey_length c.entries k h2]
      exact hlen
    · rw [if_neg h2]
      show (evictWhileOver c.capacity.toNat
        (⟨k, s, h⟩ :: c.entries)).length ≤ c.capacity.toNat
      rw [evictWhileOver_eq_take, List.length_take]
      omega

lemma applyAdds_length :
    ∀ (ops : List (Nat × Nat × Nat)) (c : MetaCache),
      c.entries.length ≤ c.capacity.toNat →
      (applyAdds c ops).entries.length ≤ c.capacity.toNat := by
  intro ops
  induction ops with
  | nil => intro c hlen; exact hlen
  | cons op rest ih =>
    intro c hlen
    have hrw : applyAdds c (op :: rest)
        = applyAdds (c.add op.1 op.2.1 op.2.2) rest := rfl
    rw [hrw]
    have hstep := add_length_le c op.1 op.2.1 op.2.2 hlen
    have hrec := ih (c.add op.1 op.2.1 op.2.2)
      (by rw [add_capacity]; exact hstep)
    rw [add_capacity] at hrec
    exact hrec

lemma applyAdds_disabled :
    ∀ (ops : List (Nat × Nat × Nat)) (c : MetaCache),
      c.capacity ≤ 0 → applyAdds c ops = c := by
  intro ops
  induction ops with
  | nil => intro c _; rfl
  | cons op rest ih =>
    intro c hcap
    have hrw : applyAdds c (op :: rest)
        = applyAdds (c.add op.1 op.2.1 op.2.2) rest := rfl
    have hnoop : c.add op.1 op.2.1 op.2.2 = c := by
      rw [MetaCache.add, if_pos hcap]
    rw [hrw, hnoop, ih c hcap]

/-- C10: the LRU metadata cache constructed with capacity `C` never holds
more than `C.toNat` (that is, `max C 0`) entries after any sequence of
`Add` operations (`Get` does not mutate); when `C ≤ 0` every `Add` is a
no-op, so `Get` always returns not-found and the cache is disabled; and
`Add` through a nil cache reference is a no-op rather than a panic. -/
theorem c10_lru_capacity_bound (C : Int) (ops : List (Nat × Nat × Nat))
    (x k s h : Nat) :
    (applyAdds (newSolanaMetadataCache C) ops).entries.length ≤ C.toNat
    ∧ (C ≤ 0 → (applyAdds (newSolanaMetadataCache C) ops).get x = none)
    ∧ addToCacheRef none k s h = none := by
  refine ⟨?_, ?_, rfl⟩
  · have := applyAdds_length ops (newSolanaMetadataCache C)
      (by simp [newSolanaMetadataCache])
    simpa [newSolanaMetadataCache] using this
  · intro hC
    rw [applyAdds_disabled ops _ hC]
    rfl

/-- Witness for C10: with capacity -1, adds are no-ops, the entry count
stays at 0 ≤ 0, `Get` misses, and a nil-reference `Add` is a no-op. -/
theorem c10_witness :
    ((-1 : Int) ≤ 0) ∧
    (applyAdds (newSolanaMetadataCache (-1)) [(1, 2, 3), (4, 5, 6)]).entries.length
        ≤ (-1 : Int).toNat ∧
    (applyAdds (newSolanaMetadataCache (-1)) [(1, 2, 3), (4, 5, 6)]).get 1 = none ∧
    addToCacheRef none 1 2 3 = none := by
  obtain ⟨ha, hb, hc⟩ :=
    c10_lru_capacity_bound (-1) [(1, 2, 3), (4, 5, 6)] 1 1 2 3
  exact ⟨by decide, ha, hb (by decide), hc⟩

/-- Witness for C6: capacity 2; adding keys 1, 2, 3 evicts key 1; and in
a full capacity-2 cache holding keys 1 and 2, re-adding key 1 (with new
slot 30 and hash 31) then adding fresh key 5 evicts key 2 while key 1
stays retrievable with the refreshed values. -/
theorem c6_witness :
    (0 < 2 ∧ ([1, 2, 3] : List Nat).Nodup ∧ [2, 3].length = 2 ∧
      (addKeys (newSolanaMetadataCache ((2 : Nat) : Int)) [1, 2, 3]).get 1
        = none) ∧
    ((2 : Int) ≤ (2 : Int) ∧
      (∃ e ∈ [(⟨1, 10, 11⟩ : MetaEntry), ⟨2, 20, 21⟩], e.blockHash = 1) ∧
      (∀ e ∈ [(⟨1, 10, 11⟩ : MetaEntry), ⟨2, 20, 21⟩], e.blockHash ≠ 5) ∧
      (5 : Nat) ≠ 1 ∧
      ((((⟨2, [⟨1, 10, 11⟩, ⟨2, 20, 21⟩]⟩ : MetaCache).add 1 30 31).add 5 50 51).get 1
        = some (30, 31))) := by
  obtain ⟨ha, hb⟩ :=
    c6_lru_evicts_first_and_refresh_protects 2 1 [2, 3]
      (⟨2, [⟨1, 10, 11⟩, ⟨2, 20, 21⟩]⟩ : MetaCache) 1 30 31 50 51 5
  refine ⟨⟨by decide, by decide, by decide, ha (by decide) (by decide) rfl⟩,
    ⟨by decide, by decide, by decide, by decide,
      hb (by decide) (by decide) (by decide) (by decide)⟩⟩

/-- The byte prefix `"solana-meta-"` of durable metadata keys
(core/rawdb/solana_metadata.go). Bytes are modelled as `Nat`. -/
def solanaMetadataPrefix : List Nat :=
  "solana-meta-".toList.map Char.toNat

/-- Model of `solanaMetadataKey` (core/rawdb/solana_metadata.go): prefix followed
by the 32 block-hash bytes. -/
def solanaMetadataKey (blockHash : List Nat) : List Nat :=
  solanaMetadataPrefix ++ blockHash

/-- Model of `binary.BigEndian.Uint64` over the first 8 bytes of a value. -/
def beUint64 (bytes : List Nat) : Nat :=
  bytes.foldl (fun acc b => acc * 256 + b) 0

/-- Model of `ReadSolanaMetadata` (core/rawdb/solana_metadata.go, the richer
slot-plus-hash variant): `dbGet` models `db.Get`, with `none` standing
for an error or a missing key. Values shorter than 8 bytes are rejected;
otherwise the first 8 bytes decode big-endian to the slot, and the solana
hash is copied only when at least 8+32 bytes are present (the Go
`common.Hash` stays zero otherwise). -/
def ReadSolanaMetadata (dbGet : List Nat → Option (List Nat))
    (blockHash : List Nat) : Option (Nat × List Nat) :=
  match dbGet (solanaMetadataKey blockHash) with
  | none => none
  | some data =>
    if data.length < 8 then none
    else
      some (beUint64 (data.take 8),
        if 8 + 32 ≤ data.length then (data.drop 8).take 32
        else List.replicate 32 0)

/-- The byte prefix `"solana-tx-meta-"` of transaction-indexed metadata
keys (core/rawdb/solana_metadata.go, tx variant). -/
def solanaTxMetadataPrefix : List Nat :=
  "solana-tx-meta-".toList.map Char.toNat

/-- Model of `solanaTxMetadataKey` (core/rawdb/solana_metadata.go, tx variant). -/
def solanaTxMetadataKey (txHash : List Nat) : List Nat :=
  solanaTxMetadataPrefix ++ txHash

/-- Reinterpreting a uint64 as a Go int64 (two's complement), for the
timestamp field. -/
def int64OfUint64 (n : Nat) : Int :=
  if n < 2 ^ 63 then (n : Int) else (n : Int) - 2 ^ 64

/-- Model of `ReadSolanaTxMetadata` (core/rawdb/solana_metadata.go, tx variant):
rejects any value whose length differs from exactly 16; otherwise decodes
an 8-byte big-endian slot and an 8-byte big-endian signed timestamp. -/
def ReadSolanaTxMetadata (dbGet : List Nat → Option (List Nat))
    (txHash : List Nat) : Option (Nat × Int) :=
  match dbGet (solanaTxMetadataKey txHash) with
  | none => none
  | some enc =>
    if enc.length ≠ 16 then none
    else
      some (beUint64 (enc.take 8), int64OfUint64 (beUint64 ((enc.drop 8).take 8)))

/-- A 32-byte all-zero block hash used in the C7 counterexample. -/
def c7BlockHash : List Nat := List.replicate 32 0

/-- A database holding a single 9-byte (wrong-length) metadata record for
`c7BlockHash`. -/
def c7DbGet : List Nat → Option (List Nat) :=
  fun key => if key = solanaMetadataKey c7BlockHash
             then some (List.replicate 9 0) else none

/-- Counterexample to C7 as stated: a stored 9-byte record matches
neither the 8-byte slot-only encoding nor the 40-byte slot-plus-hash
encoding, yet `ReadSolanaMetadata` reports it as found (slot 0, zero
hash) instead of not-found — only lengths below 8 are rejected. -/
theorem c7_counterexample :
    (List.replicate 9 (0 : Nat)).length ≠ 8 ∧
    (List.replicate 9 (0 : Nat)).length ≠ 8 + 32 ∧
    ReadSolanaMetadata c7DbGet c7BlockHash
      = some (0, List.replicate 32 0) := by
  refine ⟨by decide, by decide, ?_⟩
  rw [ReadSolanaMetadata]
  rw [show c7DbGet (solanaMetadataKey c7BlockHash)
      = some (List.replicate 9 0) from if_pos rfl]
  decide

/-- C7 (amended): `ReadSolanaMetadata` returns not-found exactly when the
key-value get fails or the value is shorter than the 8-byte minimum
(longer wrong-length values are decoded, with a zero source hash when the
value is shorter than 40 bytes); `ReadSolanaTxMetadata` returns not-found
exactly when the get fails or the value length differs from exactly 16.
Neither function can crash on corrupt records (both are total). -/
theorem c7_amended_read_not_found_conditions
    (dbGet txGet : List Nat → Option (List Nat))
    (blockHash txHash : List Nat) :
    (ReadSolanaMetadata dbGet blockHash = none ↔
      dbGet (solanaMetadataKey blockHash) = none ∨
        ∃ d, dbGet (solanaMetadataKey blockHash) = some d ∧ d.length < 8) ∧
    (ReadSolanaTxMetadata txGet txHash = none ↔
      txGet (solanaTxMetadataKey txHash) = none ∨
        ∃ d, txGet (solanaTxMetadataKey txHash) = some d ∧ d.length ≠ 16) := by
  constructor
  · rw [ReadSolanaMetadata]
    match hget : dbGet (solanaMetadataKey blockHash) with
    | none => simp
    | some data =>
      by_cases hlen : data.length < 8
      · simp [hlen]
      · simp [hlen]
  · rw [ReadSolanaTxMetadata]
    match hget : txGet (solanaTxMetadataKey txHash) with
    | none => simp
    | some enc =>
      by_cases hlen : enc.length ≠ 16
      · simp [hlen]
      · simp [hlen]

/-- Model of `Manager.ShouldPanic` (core/footprint/footprint.go):
`os.Getenv("GETH_FOOTPRINT_PANIC") == "true"`. The environment is passed
explicitly; the Go code reads it fresh on every call. -/
def managerShouldPanic (getenv : String → String) : Bool :=
  getenv "GETH_FOOTPRINT_PANIC" == "true"

/-- Model of `FootprintMismatchTracker.ShouldPanic` (core/footprint_mismatch.go):
`os.Getenv("GETH_FOOTPRINT_PANIC") != "true"` — note the inverted
comparison relative to `Manager.ShouldPanic`. -/
def trackerShouldPanic (getenv : String → String) : Bool :=
  !(getenv "GETH_FOOTPRINT_PANIC" == "true")

/-- C8: `Manager.ShouldPanic` returns true exactly when the
`GETH_FOOTPRINT_PANIC` toggle is set to "true", as the claim states; but
`FootprintMismatchTracker.ShouldPanic` — cited by the same claim and
carrying the same doc comment — returns the negation: with the toggle
enabled it returns false, and with the toggle unset it returns true.
The tracker code inverts the documented toggle. -/
theorem c8_shouldPanic_toggle_divergence :
    (∀ getenv : String → String,
      managerShouldPanic getenv = (getenv "GETH_FOOTPRINT_PANIC" == "true")) ∧
    managerShouldPanic (fun _ => "true") = true ∧
    trackerShouldPanic (fun _ => "true") = false ∧
    trackerShouldPanic (fun _ => "") = true := by
  exact ⟨fun _ => rfl, by decide, by decide, by decide⟩
